import Mathlib

/-!
Verification of the moneycontrol business-section scraper
(src/scrape_business_to_sqlite.py) against its specification.

The Python source is shallowly embedded below.  HTML documents are modelled
as a tree of element and text nodes; BeautifulSoup queries become pure tree
traversals; the sqlite table becomes a list of rows threaded through the
orchestrator; the dateutil parser and the HTTP transport are external
collaborators and enter as oracle functions carried by an environment
record.  All definitions are executable.
-/

/-! ## Python string primitives -/

/-- ASCII whitespace recognised by the Python str.strip method and by the
regex class backslash-s (space, tab, newline, carriage return, vertical
tab, form feed). -/
def isSpace (c : Char) : Bool :=
  c = ' ' || c = '\t' || c = '\n' || c = '\r' || c = '\x0b' || c = '\x0c'

/-- Python str.strip(): remove leading and trailing whitespace. -/
def pyStrip (s : String) : String :=
  String.mk (((s.toList.dropWhile isSpace).reverse.dropWhile isSpace).reverse)

/-- Membership test for the Python substring operator, on char lists:
startsWithL n h is true when n is a leading segment of h. -/
def startsWithL : List Char → List Char → Bool
  | [], _ => true
  | _ :: _, [] => false
  | a :: as, b :: bs => a = b && startsWithL as bs

/-- The Python substring operator (needle in hay) on char lists. -/
def containsSubL (needle : List Char) : List Char → Bool
  | [] => startsWithL needle []
  | b :: bs => startsWithL needle (b :: bs) || containsSubL needle bs

/-- The Python substring operator (needle in hay) on strings. -/
def containsSub (needle hay : String) : Bool :=
  containsSubL needle.toList hay.toList

/-- Split a string into whitespace-separated words (Python str.split with
no argument); used for multi-valued class attributes. -/
def wordsAux : List Char → List Char → List String
  | [], acc => if acc = [] then [] else [String.mk acc.reverse]
  | c :: t, acc =>
    if isSpace c then
      if acc = [] then wordsAux t [] else String.mk acc.reverse :: wordsAux t []
    else wordsAux t (c :: acc)

/-- Whitespace-separated words of a string. -/
def words (s : String) : List String := wordsAux s.toList []

/-- Python truthiness of an optional string: None and the empty string are
falsy, every other string is truthy. -/
def truthyOpt : Option String → Bool
  | none => false
  | some s => s ≠ ""

/-! ## urllib.parse model

A model of urllib.parse.urlsplit restricted to what the scraper uses:
scheme, netloc, path, query and fragment of http(s)-style URLs, following
the splitting order of the CPython implementation (scheme, then netloc,
then fragment, then query). -/

/-- Characters allowed inside a URL scheme (RFC 3986 / CPython
scheme_chars). -/
def schemeChars (c : Char) : Bool :=
  c.isAlphanum || c = '+' || c = '-' || c = '.'

/-- A candidate scheme must begin with an ASCII letter. -/
def schemeOkHead : List Char → Bool
  | [] => false
  | c :: _ => c.isAlpha

/-- Split off the scheme, as CPython does: the part before the first colon
is a scheme when the colon exists at a positive position, the head is a
letter and every character is a scheme character; the scheme is
lowercased. -/
def schemeSplit (l : List Char) : List Char × List Char :=
  let pre := l.takeWhile (fun c => c ≠ ':')
  if pre.length < l.length ∧ schemeOkHead pre ∧ pre.all schemeChars then
    (pre.map Char.toLower, (l.dropWhile (fun c => c ≠ ':')).drop 1)
  else ([], l)

/-- Characters that may appear inside a netloc (everything up to the next
slash, question mark or hash). -/
def netlocChar (c : Char) : Bool :=
  c ≠ '/' && c ≠ '?' && c ≠ '#'

/-- Split off the network location when the rest of the URL starts with a
double slash. -/
def netlocSplit (l : List Char) : List Char × List Char :=
  if l.take 2 = ['/', '/'] then
    ((l.drop 2).takeWhile netlocChar, (l.drop 2).dropWhile netlocChar)
  else ([], l)

/-- Split a char list at the first occurrence of a delimiter; the
delimiter itself is dropped.  When the delimiter is absent the second
component is empty, matching the Python split-once idiom. -/
def splitAtChar (c : Char) (l : List Char) : List Char × List Char :=
  (l.takeWhile (fun d => d ≠ c), (l.dropWhile (fun d => d ≠ c)).drop 1)

/-- The result of urllib.parse.urlparse as used by the scraper. -/
structure URLParts where
  scheme : String
  netloc : String
  path : String
  query : String
  fragment : String
deriving Repr, DecidableEq

/-- Model of urllib.parse.urlparse (the fields the scraper reads). -/
def urlparse (s : String) : URLParts :=
  let p1 := schemeSplit s.toList
  let p2 := netlocSplit p1.2
  let p3 := splitAtChar '#' p2.2
  let p4 := splitAtChar '?' p3.1
  ⟨String.mk p1.1, String.mk p2.1, String.mk p4.1, String.mk p4.2, String.mk p3.2⟩

/-- Directory part of a path: everything up to and including the last
slash. -/
def dirOf (p : String) : String :=
  String.mk ((p.toList.reverse.dropWhile (fun c => c ≠ '/')).reverse)

/-- Model of urllib.parse.urljoin for the cases arising from href
resolution: an absolute URL is returned unchanged, a scheme-relative URL
inherits the base scheme, a rooted path replaces the base path, and a
relative path is appended to the base directory.  Dot-segment
normalisation is not modelled. -/
def urljoin (base url : String) : String :=
  if url = "" then base
  else if (urlparse url).scheme ≠ "" then url
  else if url.toList.take 2 = ['/', '/'] then (urlparse base).scheme ++ ":" ++ url
  else if url.toList.headD ' ' = '/' then
    (urlparse base).scheme ++ "://" ++ (urlparse base).netloc ++ url
  else
    (urlparse base).scheme ++ "://" ++ (urlparse base).netloc ++
      dirOf (urlparse base).path ++ url

/-- The normalisation applied to kept links in collect_business_links:
abs_url.split("#")[0].split("?")[0]. -/
def cleanUrl (s : String) : String :=
  String.mk ((s.toList.takeWhile (fun c => c ≠ '#')).takeWhile (fun c => c ≠ '?'))

/-- Characters that survive cleanUrl: everything other than hash and
question mark. -/
def keepChar (c : Char) : Bool :=
  c ≠ '#' && c ≠ '?'

/-! ## HTML document model (BeautifulSoup) -/

/-- A parsed HTML document: element nodes with a tag name, an attribute
list and children, and text nodes.  A BeautifulSoup object is modelled as
the root node of such a tree. -/
inductive Node where
  | elem : String → List (String × String) → List Node → Node
  | text : String → Node
deriving Repr

/-- Attribute lookup in an attribute list. -/
def getAttrOf (a : List (String × String)) (k : String) : Option String :=
  (a.find? (fun p => p.1 = k)).map (fun p => p.2)

/-- Tag.get(key): attribute lookup on a node (text nodes carry none). -/
def Node.getAttr : Node → String → Option String
  | .elem _ a _, k => getAttrOf a k
  | .text _, _ => none

/-- CSS class membership: the class attribute is whitespace-separated and
a class selector matches when the sought class is one of its words. -/
def hasClass (a : List (String × String)) (cls : String) : Bool :=
  match getAttrOf a "class" with
  | some v => (words v).contains cls
  | none => false

mutual
/-- All text-node strings below a node, in document order (the strings
property of BeautifulSoup). -/
def strings : Node → List String
  | .text s => [s]
  | .elem _ _ cs => stringsL cs
/-- Text-node strings of a list of siblings, in order. -/
def stringsL : List Node → List String
  | [] => []
  | c :: cs => strings c ++ stringsL cs
end

/-- Tag.get_text(separator=sep, strip=True): strip every string, drop the
ones that become empty, join with the separator. -/
def getTextStrip (sep : String) (n : Node) : String :=
  String.intercalate sep (((strings n).map pyStrip).filter (fun s => s ≠ ""))

/-- Tag.get_text() with default arguments: concatenate all strings. -/
def getTextRaw (n : Node) : String :=
  String.join (strings n)

mutual
/-- soup.find / select_one: first element in document order (the node
itself included) whose tag and attributes satisfy the predicate. -/
def findElem (p : String → List (String × String) → Bool) : Node → Option Node
  | .text _ => none
  | .elem t a cs =>
    if p t a then some (.elem t a cs) else findElemL p cs
/-- First matching element inside a sibling list, in document order. -/
def findElemL (p : String → List (String × String) → Bool) : List Node → Option Node
  | [] => none
  | c :: cs =>
    match findElem p c with
    | some r => some r
    | none => findElemL p cs
end

mutual
/-- soup.find_all on a whole document: every element in document order
(the node itself included) whose tag and attributes satisfy the
predicate. -/
def findAllNode (p : String → List (String × String) → Bool) : Node → List Node
  | .text _ => []
  | .elem t a cs =>
    (if p t a then [Node.elem t a cs] else []) ++ findAllL p cs
/-- find_all over a sibling list, in document order. -/
def findAllL (p : String → List (String × String) → Bool) : List Node → List Node
  | [] => []
  | c :: cs => findAllNode p c ++ findAllL p cs
end

/-- Tag.find_all: matching descendants of a node, the node itself
excluded. -/
def findAllDesc (p : String → List (String × String) → Bool) : Node → List Node
  | .text _ => []
  | .elem _ _ cs => findAllL p cs

mutual
/-- soup.find(string=pattern) followed by .parent: locate the first text
node in document order whose string satisfies the predicate and return
its enclosing element. -/
def findTextParent (p : String → Bool) : Node → Option Node
  | .text _ => none
  | .elem t a cs => findTextParentL p (Node.elem t a cs) cs
/-- Scan a sibling list for a matching text node, descending into element
children; parent is the element owning the list. -/
def findTextParentL (p : String → Bool) (parent : Node) : List Node → Option Node
  | [] => none
  | .text s :: cs =>
    if p s then some parent else findTextParentL p parent cs
  | .elem t a cs2 :: cs =>
    match findTextParent p (Node.elem t a cs2) with
    | some r => some r
    | none => findTextParentL p parent cs
end

/-! ## Field extraction (parse_moneycontrol) -/

/-- The record built by parse_moneycontrol for one article page. -/
structure Article where
  article_url : String
  title : Option String
  author : Option String
  publication_date : Option String
  content : String
deriving Repr, DecidableEq

/-- Model of dateutil.parser.parse composed with datetime.isoformat: an
oracle returning the canonical ISO string on success and none when the
library would raise. -/
def DateOracle : Type := String → Option String

/-- parse_iso_datetime from the source: falsy input (None or the empty
string) gives None; otherwise the parsed ISO form when the permissive
parser succeeds, and the stripped original text when it raises.  The
function is total, so it never raises. -/
def parse_iso_datetime (dp : DateOracle) (text : Option String) : Option String :=
  match text with
  | none => none
  | some s =>
    if s = "" then none
    else
      match dp s with
      | some iso => some iso
      | none => some (pyStrip s)

/-- Selector for the og:title meta element. -/
def metaOgTitlePred (t : String) (a : List (String × String)) : Bool :=
  t = "meta" && getAttrOf a "property" = some "og:title"

/-- Selector for h1 elements. -/
def h1Pred (t : String) (_ : List (String × String)) : Bool :=
  t = "h1"

/-- The og:title branch of the title cascade: the stripped content
attribute of the first og:title meta element, when that attribute is
present and truthy. -/
def titleMeta (soup : Node) : Option String :=
  match findElem metaOgTitlePred soup with
  | some n =>
    match n.getAttr "content" with
    | some c => if c = "" then none else some (pyStrip c)
    | none => none
  | none => none

/-- Title extraction: og:title meta first, then the text of the first h1
when the meta step gave nothing truthy. -/
def extractTitle (soup : Node) : Option String :=
  let t0 := titleMeta soup
  if truthyOpt t0 then t0
  else
    match findElem h1Pred soup with
    | some h1 => some (getTextStrip "" h1)
    | none => t0

/-- Selector for the author meta element. -/
def metaAuthorPred (t : String) (a : List (String × String)) : Bool :=
  t = "meta" && getAttrOf a "name" = some "author"

/-- Selector group ".author, .byline, .author-name, .article-author,
a[rel=author]" used for visible bylines. -/
def authorSelPred (t : String) (a : List (String × String)) : Bool :=
  hasClass a "author" || hasClass a "byline" || hasClass a "author-name" ||
    hasClass a "article-author" || (t = "a" && getAttrOf a "rel" = some "author")

/-- The regex ^By backslash-s +, case-insensitive, anchored at the start
of a text node. -/
def byPattern (s : String) : Bool :=
  match s.toList with
  | b :: y :: w :: _ => (b = 'B' || b = 'b') && (y = 'Y' || y = 'y') && isSpace w
  | _ => false

/-- The content attribute of the first author meta element, unchecked for
truthiness. -/
def metaAuthorContent (soup : Node) : Option String :=
  match findElem metaAuthorPred soup with
  | some n => n.getAttr "content"
  | none => none

/-- Author extraction: meta author when truthy; otherwise the joined text
of the first byline element when one matches (its emptiness is not
rechecked); otherwise the joined text of the parent of the first
"By ..." text node. -/
def extractAuthor (soup : Node) : Option String :=
  if truthyOpt (metaAuthorContent soup) then (metaAuthorContent soup).map pyStrip
  else
    match findElem authorSelPred soup with
    | some el => some (getTextStrip " " el)
    | none =>
      match findTextParent byPattern soup with
      | some parent => some (getTextStrip " " parent)
      | none => none

/-- Selector for the article:published_time meta element. -/
def metaPubPred (t : String) (a : List (String × String)) : Bool :=
  t = "meta" && getAttrOf a "property" = some "article:published_time"

/-- Selector for time elements. -/
def timePred (t : String) (_ : List (String × String)) : Bool :=
  t = "time"

/-- Selector group ".date, .time, .publishing-date, .article-date". -/
def dateSelPred (_ : String) (a : List (String × String)) : Bool :=
  hasClass a "date" || hasClass a "time" || hasClass a "publishing-date" ||
    hasClass a "article-date"

/-- Publication date extraction: published_time meta, then the datetime
attribute (or visible text) of the first time element, then the text of
the first date-classed element; each candidate goes through
parse_iso_datetime. -/
def extractDate (dp : DateOracle) (soup : Node) : Option String :=
  let mc : Option String :=
    match findElem metaPubPred soup with
    | some n => n.getAttr "content"
    | none => none
  if truthyOpt mc then parse_iso_datetime dp mc
  else
    match findElem timePred soup with
    | some timeTag =>
      let dtAttr := timeTag.getAttr "datetime"
      let dt := if truthyOpt dtAttr then dtAttr.getD "" else getTextRaw timeTag
      parse_iso_datetime dp (some dt)
    | none =>
      match findElem dateSelPred soup with
      | some el => parse_iso_datetime dp (some (getTextRaw el))
      | none => none

/-- extract_text_from_elements from the source: the stripped joined text
of each element, empty chunks dropped, the rest joined with a blank
line. -/
def extract_text_from_elements (elements : List Node) : String :=
  pyStrip (String.intercalate "\n\n"
    (((elements.map (getTextStrip " ")).filter (fun s => s ≠ ""))))

/-- Selector div.articleText. -/
def selArticleText (t : String) (a : List (String × String)) : Bool :=
  t = "div" && hasClass a "articleText"

/-- Selector div.articleContent. -/
def selArticleContent (t : String) (a : List (String × String)) : Bool :=
  t = "div" && hasClass a "articleContent"

/-- Selector div.article-desc. -/
def selArticleDesc (t : String) (a : List (String × String)) : Bool :=
  t = "div" && hasClass a "article-desc"

/-- Selector div#content. -/
def selContentId (t : String) (a : List (String × String)) : Bool :=
  t = "div" && getAttrOf a "id" = some "content"

/-- Selector div#articleBody. -/
def selArticleBodyId (t : String) (a : List (String × String)) : Bool :=
  t = "div" && getAttrOf a "id" = some "articleBody"

/-- Selector article. -/
def selArticleTag (t : String) (_ : List (String × String)) : Bool :=
  t = "article"

/-- The ordered content_selectors list of the source. -/
def content_selectors : List (String → List (String × String) → Bool) :=
  [selArticleText, selArticleContent, selArticleDesc,
   selContentId, selArticleBodyId, selArticleTag]

/-- Paragraph- and block-level descendants collected inside a matched
container: find_all(["p", "div"]). -/
def pDivPred (t : String) (_ : List (String × String)) : Bool :=
  t = "p" || t = "div"

/-- Paragraph elements: find_all("p"). -/
def pPred (t : String) (_ : List (String × String)) : Bool :=
  t = "p"

/-- The selector loop of the content cascade: the content variable starts
as None, every matching selector overwrites it with the joined descendant
text, and the loop stops early at the first non-empty result. -/
def contentLoop (soup : Node) : List (String → List (String × String) → Bool) → Option String
  | [] => none
  | sel :: rest =>
    match findElem sel soup with
    | none => contentLoop soup rest
    | some node =>
      let c := extract_text_from_elements (findAllDesc pDivPred node)
      if c ≠ "" then some c
      else
        match contentLoop soup rest with
        | some c2 => some c2
        | none => some c

/-- Content extraction: the selector loop, then all paragraph text inside
the first article element, then all paragraph text in the document; the
final None-or-empty value collapses to the empty string. -/
def extractContent (soup : Node) : String :=
  let content0 := contentLoop soup content_selectors
  let content1 :=
    if truthyOpt content0 then content0
    else
      match findElem selArticleTag soup with
      | some art => some (extract_text_from_elements (findAllDesc pPred art))
      | none => content0
  let content2 :=
    if truthyOpt content1 then content1
    else some (extract_text_from_elements (findAllNode pPred soup))
  content2.getD ""

/-- parse_moneycontrol: the structured record extracted from one article
document. -/
def parse_moneycontrol (dp : DateOracle) (url : String) (soup : Node) : Article :=
  ⟨url, extractTitle soup, extractAuthor soup, extractDate dp soup, extractContent soup⟩

/-! ## Link discovery (collect_business_links) -/

/-- Anchor elements carrying an href attribute: find_all("a",
href=True). -/
def anchorPred (t : String) (a : List (String × String)) : Bool :=
  t = "a" && (getAttrOf a "href").isSome

/-- The loop body of collect_business_links: resolve the href against the
homepage, keep it when the netloc matches the homepage netloc and the
path contains the section marker, normalise away fragment and query, and
insert into the set. -/
def collectStep (home_url base_netloc : String) (links : List String) (anchor : Node) :
    List String :=
  let href := pyStrip ((anchor.getAttr "href").getD "")
  let abs_url := urljoin home_url href
  let parsed := urlparse abs_url
  if parsed.netloc = base_netloc ∧ containsSub "/business/" parsed.path then
    let cleaned := cleanUrl abs_url
    if links.contains cleaned then links else links ++ [cleaned]
  else links

/-- collect_business_links: the set of same-netloc business-section links
of the homepage, as the list of its distinct elements in insertion
order. -/
def collect_business_links (home_url : String) (homepage_soup : Node) : List String :=
  (findAllNode anchorPred homepage_soup).foldl
    (collectStep home_url (urlparse home_url).netloc) []

/-! ## Storage (save_article_to_db) and orchestration (scrape_moneycontrol) -/

/-- One persisted row of the business_articles table (the surrogate id is
the list position). -/
structure Row where
  title : Option String
  author : Option String
  publication_date : Option String
  article_url : String
  content : String
deriving Repr, DecidableEq

/-- Terminal per-link outcomes of the pipeline, as printed by the
source. -/
inductive Outcome where
  | fetchFailed
  | parseError
  | rejected
  | saved
  | duplicate
  | dbError
deriving Repr, DecidableEq

/-- save_article_to_db: INSERT fails with IntegrityError on an existing
article_url, reported as the duplicate outcome with the table untouched.
Otherwise the row is inserted and committed; the success print then
slices the title, which raises TypeError when the title is None; that
exception falls into the generic handler, so the outcome is dbError even
though the committed row stays in the table. -/
def save_article_to_db (db : List Row) (article : Article) : Outcome × List Row :=
  if db.any (fun r => r.article_url = article.article_url) then (.duplicate, db)
  else
    let db2 := db ++
      [⟨article.title, article.author, article.publication_date,
        article.article_url, article.content⟩]
    match article.title with
    | none => (.dbError, db2)
    | some _ => (.saved, db2)

/-- External collaborators of the pipeline: the HTTP fetch (None models a
transport failure or non-2xx response caught by get_soup), an oracle for
an exception escaping parse_moneycontrol (caught by the per-link handler
of the orchestrator), and the date parser. -/
structure Env where
  fetch : String → Option Node
  parseEx : String → Bool
  dateParse : DateOracle

/-- One iteration of the scrape loop for a single link: fetch, parse,
reject records with falsy title and empty content, store the rest; every
failure is confined to this iteration. -/
def processLink (env : Env) (db : List Row) (link : String) : Outcome × List Row :=
  match env.fetch link with
  | none => (.fetchFailed, db)
  | some soup =>
    if env.parseEx link then (.parseError, db)
    else
      let article := parse_moneycontrol env.dateParse link soup
      if ¬ truthyOpt article.title ∧ article.content = "" then (.rejected, db)
      else save_article_to_db db article

/-- The scrape loop over the sorted link list: one terminal outcome per
link and the final table state. -/
def runLinks (env : Env) (db : List Row) : List String → List Outcome × List Row
  | [] => ([], db)
  | l :: ls =>
    let r := processLink env db l
    let rs := runLinks env r.2 ls
    (r.1 :: rs.1, rs.2)

/-- The homepage URL hardcoded in the source. -/
def home_url : String := "https://www.moneycontrol.com/"

/-- scrape_moneycontrol: fetch the homepage, discover business links,
return early when the fetch fails or no link is found, otherwise process
the sorted links in sequence; the result is the final table state. -/
def scrape_moneycontrol (env : Env) (db : List Row) : List Row :=
  match env.fetch home_url with
  | none => db
  | some homepage_soup =>
    let links := collect_business_links home_url homepage_soup
    if links = [] then db
    else (runLinks env db (links.mergeSort (fun a b => a ≤ b))).2

/-! ## Spec-side definition for the content claim -/

/-- Keep the first occurrence of every string, dropping later
duplicates. -/
def distinctKeepFirst (seen : List String) : List String → List String
  | [] => []
  | s :: t =>
    if seen.contains s then distinctKeepFirst seen t
    else s :: distinctKeepFirst (s :: seen) t

/-- Written from the spec wording of claim C3, not from the source: the
distinct non-empty text chunks of the given elements joined with a blank
line.  It exists only to compare the source behaviour against the spec
sentence; the source function extract_text_from_elements keeps
duplicates. -/
def specDistinctJoin (elements : List Node) : String :=
  String.intercalate "\n\n"
    (distinctKeepFirst [] ((elements.map (getTextStrip " ")).filter (fun s => s ≠ "")))

/-! ## Concrete documents and environments used by witnesses and
counterexamples -/

/-- Homepage with a relative business href and an absolute same-netloc
business href whose scheme is http while the homepage scheme is https. -/
def exHomeC2 : Node :=
  Node.elem "html" []
    [Node.elem "a" [("href", "/business/a")] [Node.text "x"],
     Node.elem "a" [("href", "http://www.moneycontrol.com/business/c")] [Node.text "y"]]

/-- Body container whose two paragraphs carry the same text. -/
def exDoc3Div : Node :=
  Node.elem "div" [("class", "articleText")]
    [Node.elem "p" [] [Node.text "x"], Node.elem "p" [] [Node.text "x"]]

/-- Article document around exDoc3Div. -/
def exDoc3 : Node := Node.elem "html" [] [exDoc3Div]

/-- Body container with a single paragraph. -/
def wDoc3Div : Node :=
  Node.elem "div" [("class", "articleText")] [Node.elem "p" [] [Node.text "hello"]]

/-- Article document around wDoc3Div. -/
def wDoc3 : Node := Node.elem "html" [] [wDoc3Div]

/-- A byline element with no text at all. -/
def exDoc4Span : Node := Node.elem "span" [("class", "author")] []

/-- A paragraph holding a text node that matches the By pattern. -/
def exDoc4Par : Node := Node.elem "p" [] [Node.text "By John Smith"]

/-- Document with an empty byline element followed by a By text node. -/
def exDoc4 : Node := Node.elem "html" [] [exDoc4Span, exDoc4Par]

/-- Document with no author meta and no byline element, only a By text
node. -/
def wDoc4b : Node := Node.elem "html" [] [Node.elem "p" [] [Node.text "By Jane Doe"]]

/-- The og:title meta element of wDoc8a. -/
def wDoc8meta : Node :=
  Node.elem "meta" [("property", "og:title"), ("content", " The Title ")] []

/-- Document carrying both an og:title meta element and an h1. -/
def wDoc8a : Node :=
  Node.elem "html" [] [wDoc8meta, Node.elem "h1" [] [Node.text "Heading"]]

/-- The h1 element of wDoc8b. -/
def wDoc8h1 : Node := Node.elem "h1" [] [Node.text "Heading"]

/-- Document with an h1 and no og:title meta element. -/
def wDoc8b : Node := Node.elem "html" [] [wDoc8h1]

/-- A document with neither title nor content. -/
def wDoc6 : Node := Node.elem "html" [] []

/-- Environment whose fetch always returns the empty document. -/
def wEnv6 : Env := ⟨fun _ => some wDoc6, fun _ => false, fun _ => none⟩

/-- A stored row with article_url u. -/
def wRow : Row := ⟨some "t", none, none, "u", "c"⟩

/-- An article carrying the already-stored article_url u. -/
def wArt : Article := ⟨"u", some "t2", none, none, "body"⟩

/-- Environment whose homepage fetch fails. -/
def wEnv1 : Env := ⟨fun _ => none, fun _ => false, fun _ => none⟩

/-- An article with a None title and a fresh URL. -/
def wArt10 : Article := ⟨"u10", none, some "ann", none, "body"⟩

/-- A date oracle that parses exactly the string d. -/
def wOracle : DateOracle := fun s => if s = "d" then some "ISO" else none

/-! ## List lemmas for the URL normalisation proofs -/

theorem takeWhile_append_all {α : Type} {p : α → Bool} {A B : List α}
    (h : ∀ x ∈ A, p x) : (A ++ B).takeWhile p = A ++ B.takeWhile p := by
  induction A with
  | nil => simp
  | cons a t ih =>
    have ha : p a := h a (by simp)
    simp only [List.cons_append, List.takeWhile_cons, ha, if_true]
    rw [ih (fun x hx => h x (by simp [hx]))]

theorem dropWhile_append_all {α : Type} {p : α → Bool} {A B : List α}
    (h : ∀ x ∈ A, p x) : (A ++ B).dropWhile p = B.dropWhile p := by
  induction A with
  | nil => simp
  | cons a t ih =>
    have ha : p a := h a (by simp)
    simp only [List.cons_append, List.dropWhile_cons, ha, if_true]
    exact ih (fun x hx => h x (by simp [hx]))

theorem dropWhile_eq_nil_of_all {α : Type} {p : α → Bool} {l : List α}
    (h : ∀ x ∈ l, p x) : l.dropWhile p = [] := by
  induction l with
  | nil => rfl
  | cons a t ih =>
    have ha : p a := h a (by simp)
    simp only [List.dropWhile_cons, ha, if_true]
    exact ih (fun x hx => h x (by simp [hx]))

theorem dropWhile_head_false {α : Type} {p : α → Bool} {l t : List α} {c : α}
    (h : l.dropWhile p = c :: t) : p c = false := by
  induction l with
  | nil => simp at h
  | cons a t2 ih =>
    by_cases ha : p a
    · rw [List.dropWhile_cons, if_pos ha] at h
      exact ih h
    · rw [List.dropWhile_cons, if_neg ha] at h
      cases h
      exact eq_false_of_ne_true ha

theorem takeWhile_takeWhile_bool {α : Type} (p q : α → Bool) (l : List α) :
    (l.takeWhile q).takeWhile p = l.takeWhile (fun a => q a && p a) := by
  induction l with
  | nil => rfl
  | cons a t ih =>
    by_cases hq : q a
    · by_cases hp : p a <;>
        simp [List.takeWhile_cons, hq, hp, ih]
    · simp [List.takeWhile_cons, hq]

theorem takeWhile_and_absorb {α : Type} {p q : α → Bool} {l : List α}
    (h : ∀ x ∈ l.takeWhile q, p x) : l.takeWhile (fun a => q a && p a) = l.takeWhile q := by
  induction l with
  | nil => rfl
  | cons a t ih =>
    by_cases hq : q a
    · have hp : p a := h a (by simp [List.takeWhile_cons, hq])
      simp only [List.takeWhile_cons, hq, hp, Bool.and_self, if_true]
      rw [ih (fun x hx => h x (by simp [List.takeWhile_cons, hq, hx]))]
    · simp [List.takeWhile_cons, hq]

theorem takeWhile_pred_congr {α : Type} {p q : α → Bool} (h : ∀ c, p c = q c)
    (l : List α) : l.takeWhile p = l.takeWhile q := by
  have hpq : p = q := funext h
  rw [hpq]

theorem takeWhile_all_swap {α : Type} {p q : α → Bool} {l : List α}
    (h : ¬ ∀ x ∈ l.takeWhile q, p x) : ∀ x ∈ l.takeWhile p, q x := by
  induction l with
  | nil => simp at h
  | cons a t ih =>
    by_cases hq : q a
    · by_cases hp : p a
      · intro x hx
        rw [List.takeWhile_cons, if_pos hp] at hx
        rcases List.mem_cons.mp hx with hx | hx
        · rw [hx]; exact hq
        · refine ih ?_ x hx
          intro hall
          exact h (by
            intro y hy
            rw [List.takeWhile_cons, if_pos hq] at hy
            rcases List.mem_cons.mp hy with hy | hy
            · rw [hy]; exact hp
            · exact hall y hy)
      · intro x hx
        rw [List.takeWhile_cons, if_neg hp] at hx
        simp at hx
    · exfalso
      apply h
      intro y hy
      rw [List.takeWhile_cons, if_neg hq] at hy
      simp at hy

theorem takeWhile_length_le {α : Type} (p : α → Bool) (l : List α) :
    (l.takeWhile p).length ≤ l.length := by
  induction l with
  | nil => simp
  | cons a t ih =>
    rw [List.takeWhile_cons]
    cases hp : p a
    · simp
    · simp only [List.length_cons, if_true]
      omega

theorem keep_of_schemeChars {c : Char} (h : schemeChars c = true) : keepChar c = true := by
  by_contra hk
  have hk2 : ¬ (c ≠ '#' ∧ c ≠ '?') := by simpa [keepChar] using hk
  rcases not_and_or.mp hk2 with h1 | h1
  · have hc : c = '#' := not_not.mp h1
    subst hc
    exact absurd h (by decide)
  · have hc : c = '?' := not_not.mp h1
    subst hc
    exact absurd h (by decide)

theorem keep_of_netlocChar {c : Char} (h : netlocChar c = true) : keepChar c = true := by
  have h2 : c ≠ '/' ∧ c ≠ '?' ∧ c ≠ '#' := by simpa [netlocChar, and_assoc] using h
  simp [keepChar, h2.2.1, h2.2.2]

theorem schemeSplit_clean (l : List Char) :
    (schemeSplit (l.takeWhile keepChar)).1 = (schemeSplit l).1 ∧
    (schemeSplit (l.takeWhile keepChar)).2 = (schemeSplit l).2.takeWhile keepChar := by
  by_cases hall : ∀ x ∈ l.takeWhile (fun c => c ≠ ':'), keepChar x
  · have hpre : (l.takeWhile keepChar).takeWhile (fun c => c ≠ ':') =
        l.takeWhile (fun c => c ≠ ':') := by
      rw [takeWhile_takeWhile_bool]
      rw [takeWhile_pred_congr
        (fun c => Bool.and_comm (keepChar c) (decide (c ≠ ':'))) l]
      exact takeWhile_and_absorb hall
    by_cases hv : (l.takeWhile (fun c => c ≠ ':')).length < l.length ∧
        schemeOkHead (l.takeWhile (fun c => c ≠ ':')) ∧
        (l.takeWhile (fun c => c ≠ ':')).all schemeChars
    · obtain ⟨d, suf, hd⟩ : ∃ d suf, l.dropWhile (fun c => c ≠ ':') = d :: suf := by
        cases hdw : l.dropWhile (fun c => c ≠ ':') with
        | nil =>
          exfalso
          have hts := List.takeWhile_append_dropWhile (fun c => decide (c ≠ ':')) l
          rw [hdw, List.append_nil] at hts
          have := hv.1
          rw [hts] at this
          exact absurd this (lt_irrefl _)
        | cons d suf => exact ⟨d, suf, rfl⟩
      have hdcolon : d = ':' := by
        have hf := dropWhile_head_false hd
        simpa using hf
      subst hdcolon
      have hdecomp : l = l.takeWhile (fun c => c ≠ ':') ++ ':' :: suf := by
        conv_lhs => rw [← List.takeWhile_append_dropWhile (fun c => decide (c ≠ ':')) l]
        rw [hd]
      have hck : keepChar ':' = true := by decide
      have hclean : l.takeWhile keepChar =
          l.takeWhile (fun c => c ≠ ':') ++ ':' :: suf.takeWhile keepChar := by
        conv_lhs => rw [hdecomp]
        rw [takeWhile_append_all hall]
        simp [List.takeWhile_cons, hck]
      have hv2 : ((l.takeWhile keepChar).takeWhile (fun c => c ≠ ':')).length <
            (l.takeWhile keepChar).length ∧
          schemeOkHead ((l.takeWhile keepChar).takeWhile (fun c => c ≠ ':')) ∧
          ((l.takeWhile keepChar).takeWhile (fun c => c ≠ ':')).all schemeChars := by
        rw [hpre]
        refine ⟨?_, hv.2.1, hv.2.2⟩
        rw [hclean, List.length_append, List.length_cons]
        omega
      have hnc : ∀ x ∈ l.takeWhile (fun c => c ≠ ':'), decide (x ≠ ':') = true := by
        intro x hx
        exact @List.mem_takeWhile_imp _ (fun c => decide (c ≠ ':')) l x hx
      have hdropl : l.dropWhile (fun c => c ≠ ':') = ':' :: suf := hd
      have hdropcl : (l.takeWhile keepChar).dropWhile (fun c => c ≠ ':') =
          ':' :: suf.takeWhile keepChar := by
        rw [hclean, dropWhile_append_all hnc]
        simp [List.dropWhile_cons]
      constructor
      · show (schemeSplit (l.takeWhile keepChar)).1 = (schemeSplit l).1
        unfold schemeSplit
        rw [if_pos hv2, if_pos hv]
        simp only [hpre]
      · show (schemeSplit (l.takeWhile keepChar)).2 = (schemeSplit l).2.takeWhile keepChar
        unfold schemeSplit
        rw [if_pos hv2, if_pos hv]
        simp only [hdropl, hdropcl, List.drop_succ_cons, List.drop_zero]
    · have hv2 : ¬ (((l.takeWhile keepChar).takeWhile (fun c => c ≠ ':')).length <
            (l.takeWhile keepChar).length ∧
          schemeOkHead ((l.takeWhile keepChar).takeWhile (fun c => c ≠ ':')) ∧
          ((l.takeWhile keepChar).takeWhile (fun c => c ≠ ':')).all schemeChars) := by
        rw [hpre]
        rintro ⟨h1, h2, h3⟩
        exact hv ⟨lt_of_lt_of_le h1 (takeWhile_length_le _ _), h2, h3⟩
      constructor
      · show (schemeSplit (l.takeWhile keepChar)).1 = (schemeSplit l).1
        unfold schemeSplit
        rw [if_neg hv2, if_neg hv]
      · show (schemeSplit (l.takeWhile keepChar)).2 = (schemeSplit l).2.takeWhile keepChar
        unfold schemeSplit
        rw [if_neg hv2, if_neg hv]
  · have hq : ∀ x ∈ l.takeWhile keepChar, (fun c => decide (c ≠ ':')) x :=
      takeWhile_all_swap hall
    have hpre2 : (l.takeWhile keepChar).takeWhile (fun c => c ≠ ':') =
        l.takeWhile keepChar :=
      List.takeWhile_eq_self_iff.mpr hq
    have hv1 : ¬ ((l.takeWhile (fun c => c ≠ ':')).length < l.length ∧
        schemeOkHead (l.takeWhile (fun c => c ≠ ':')) ∧
        (l.takeWhile (fun c => c ≠ ':')).all schemeChars) := by
      rintro ⟨h1, h2, h3⟩
      apply hall
      intro x hx
      exact keep_of_schemeChars (List.all_eq_true.mp h3 x hx)
    have hv2 : ¬ (((l.takeWhile keepChar).takeWhile (fun c => c ≠ ':')).length <
          (l.takeWhile keepChar).length ∧
        schemeOkHead ((l.takeWhile keepChar).takeWhile (fun c => c ≠ ':')) ∧
        ((l.takeWhile keepChar).takeWhile (fun c => c ≠ ':')).all schemeChars) := by
      rw [hpre2]
      rintro ⟨h1, _, _⟩
      exact absurd h1 (lt_irrefl _)
    constructor
    · show (schemeSplit (l.takeWhile keepChar)).1 = (schemeSplit l).1
      unfold schemeSplit
      rw [if_neg hv2, if_neg hv1]
    · show (schemeSplit (l.takeWhile keepChar)).2 = (schemeSplit l).2.takeWhile keepChar
      unfold schemeSplit
      rw [if_neg hv2, if_neg hv1]

theorem netlocSplit_clean (r : List Char) :
    (netlocSplit (r.takeWhile keepChar)).1 = (netlocSplit r).1 ∧
    (netlocSplit (r.takeWhile keepChar)).2 = (netlocSplit r).2.takeWhile keepChar := by
  by_cases h2 : r.take 2 = ['/', '/']
  · obtain ⟨rest, hr⟩ : ∃ rest, r = '/' :: '/' :: rest := by
      cases r with
      | nil => simp at h2
      | cons a r1 =>
        cases r1 with
        | nil => simp at h2
        | cons b r2 =>
          simp [List.take] at h2
          exact ⟨r2, by rw [h2.1, h2.2]⟩
    subst hr
    have hkslash : keepChar '/' = true := by decide
    have hcl : ('/' :: '/' :: rest).takeWhile keepChar =
        '/' :: '/' :: rest.takeWhile keepChar := by
      simp [List.takeWhile_cons, hkslash]
    rw [hcl]
    have ha : ('/' :: '/' :: rest.takeWhile keepChar).take 2 = ['/', '/'] := by
      simp [List.take]
    have hb : ('/' :: '/' :: rest).take 2 = ['/', '/'] := by
      simp [List.take]
    unfold netlocSplit
    rw [if_pos ha, if_pos hb]
    simp only [List.drop_succ_cons, List.drop_zero]
    constructor
    · rw [takeWhile_takeWhile_bool]
      rw [takeWhile_pred_congr (fun c => Bool.and_comm (keepChar c) (netlocChar c)) rest]
      exact takeWhile_and_absorb
        (fun x hx => keep_of_netlocChar (List.mem_takeWhile_imp hx))
    · obtain ⟨A, B, hAB, hA, hB⟩ : ∃ A B, rest = A ++ B ∧
          A = rest.takeWhile netlocChar ∧ B = rest.dropWhile netlocChar :=
        ⟨_, _, (List.takeWhile_append_dropWhile netlocChar rest).symm, rfl, rfl⟩
      have hAkeep : ∀ x ∈ A, keepChar x := by
        intro x hx
        rw [hA] at hx
        exact keep_of_netlocChar (List.mem_takeWhile_imp hx)
      have hAnl : ∀ x ∈ A, netlocChar x := by
        intro x hx
        rw [hA] at hx
        exact List.mem_takeWhile_imp hx
      conv_lhs => rw [hAB]
      conv_rhs => rw [hAB]
      rw [takeWhile_append_all hAkeep, dropWhile_append_all hAnl,
        dropWhile_append_all hAnl]
      cases hBc : B with
      | nil => simp
      | cons d t =>
        have hrd : rest.dropWhile netlocChar = d :: t := by rw [← hB, hBc]
        have hdnl : netlocChar d = false := dropWhile_head_false hrd
        by_cases hkd : keepChar d <;>
          simp [List.takeWhile_cons, List.dropWhile_cons, hdnl, hkd]
  · have h2c : ¬ (r.takeWhile keepChar).take 2 = ['/', '/'] := by
      intro hc
      apply h2
      have hdec := List.takeWhile_append_dropWhile keepChar r
      obtain ⟨x, hx⟩ : ∃ x, r.takeWhile keepChar = '/' :: '/' :: x := by
        cases hcl : r.takeWhile keepChar with
        | nil => rw [hcl] at hc; simp at hc
        | cons a t1 =>
          cases t1 with
          | nil => rw [hcl] at hc; simp [List.take] at hc
          | cons b t2 =>
            rw [hcl] at hc
            simp [List.take] at hc
            exact ⟨t2, by rw [hc.1, hc.2]⟩
      rw [hx] at hdec
      rw [← hdec]
      simp [List.take]
    unfold netlocSplit
    rw [if_neg h2c, if_neg h2]
    exact ⟨rfl, rfl⟩

theorem splitAtChar_clean (c : Char) (hc : ∀ x, keepChar x = true → decide (x ≠ c) = true)
    (r : List Char) :
    (splitAtChar c (r.takeWhile keepChar)).1 = r.takeWhile keepChar ∧
    (splitAtChar c (r.takeWhile keepChar)).2 = [] := by
  have hall : ∀ x ∈ r.takeWhile keepChar, decide (x ≠ c) = true := by
    intro x hx
    exact hc x (List.mem_takeWhile_imp hx)
  constructor
  · exact List.takeWhile_eq_self_iff.mpr hall
  · show ((r.takeWhile keepChar).dropWhile (fun d => d ≠ c)).drop 1 = []
    rw [dropWhile_eq_nil_of_all hall]
    rfl

theorem cleanUrl_toList (s : String) :
    (cleanUrl s).toList = s.toList.takeWhile keepChar := by
  show (s.toList.takeWhile (fun c => c ≠ '#')).takeWhile (fun c => c ≠ '?') = _
  rw [takeWhile_takeWhile_bool]
  rfl

theorem keep_ne_hash : ∀ x, keepChar x = true → decide (x ≠ '#') = true := by
  intro x hx
  simp [keepChar] at hx
  simp [hx.1]

theorem keep_ne_question : ∀ x, keepChar x = true → decide (x ≠ '?') = true := by
  intro x hx
  simp [keepChar] at hx
  simp [hx.2]

theorem path_takeWhile_keep (R : List Char) :
    (splitAtChar '?' (splitAtChar '#' R).1).1 = R.takeWhile keepChar := by
  show (R.takeWhile (fun d => d ≠ '#')).takeWhile (fun d => d ≠ '?') = _
  rw [takeWhile_takeWhile_bool]
  rfl

theorem urlparse_cleanUrl (s : String) :
    urlparse (cleanUrl s) =
      ⟨(urlparse s).scheme, (urlparse s).netloc, (urlparse s).path, "", ""⟩ := by
  obtain ⟨h1a, h1b⟩ := schemeSplit_clean s.toList
  obtain ⟨h2a, h2b⟩ := netlocSplit_clean (schemeSplit s.toList).2
  obtain ⟨h3a, h3b⟩ :=
    splitAtChar_clean '#' keep_ne_hash ((netlocSplit (schemeSplit s.toList).2).2)
  obtain ⟨h4a, h4b⟩ :=
    splitAtChar_clean '?' keep_ne_question ((netlocSplit (schemeSplit s.toList).2).2)
  simp only [urlparse]
  rw [cleanUrl_toList]
  rw [h1a, h1b, h2a, h2b, h3a, h3b, h4a, h4b]
  rw [path_takeWhile_keep]

/-! ## Link discovery invariants -/

theorem collect_fold_spec (hu bn : String) (anchors : List Node) :
    ∀ acc : List String,
      (∀ l ∈ acc, ∃ abs : String, l = cleanUrl abs ∧ (urlparse abs).netloc = bn ∧
          containsSub "/business/" (urlparse abs).path = true) →
      ∀ link ∈ anchors.foldl (collectStep hu bn) acc,
        ∃ abs : String, link = cleanUrl abs ∧ (urlparse abs).netloc = bn ∧
          containsSub "/business/" (urlparse abs).path = true := by
  induction anchors with
  | nil =>
    intro acc hacc link hlink
    rw [List.foldl_nil] at hlink
    exact hacc link hlink
  | cons a t ih =>
    intro acc hacc link hlink
    rw [List.foldl_cons] at hlink
    refine ih _ ?_ link hlink
    intro l hl
    unfold collectStep at hl
    by_cases hcond :
        (urlparse (urljoin hu (pyStrip ((a.getAttr "href").getD "")))).netloc = bn ∧
        containsSub "/business/"
          (urlparse (urljoin hu (pyStrip ((a.getAttr "href").getD "")))).path = true
    · rw [if_pos hcond] at hl
      by_cases hmem :
          acc.contains (cleanUrl (urljoin hu (pyStrip ((a.getAttr "href").getD ""))))
      · rw [if_pos hmem] at hl
        exact hacc l hl
      · rw [if_neg hmem] at hl
        rcases List.mem_append.mp hl with h | h
        · exact hacc l h
        · have hle : l = cleanUrl (urljoin hu (pyStrip ((a.getAttr "href").getD ""))) := by
            simpa using h
          exact ⟨urljoin hu (pyStrip ((a.getAttr "href").getD "")), hle, hcond.1, hcond.2⟩
    · rw [if_neg hcond] at hl
      exact hacc l hl

theorem collect_mem_spec (hu : String) (soup : Node) :
    ∀ link ∈ collect_business_links hu soup,
      ∃ abs : String, link = cleanUrl abs ∧
        (urlparse abs).netloc = (urlparse hu).netloc ∧
        containsSub "/business/" (urlparse abs).path = true := by
  intro link hlink
  unfold collect_business_links at hlink
  exact collect_fold_spec hu (urlparse hu).netloc (findAllNode anchorPred soup) []
    (by intro l hl; simp at hl) link hlink

/-! ## Claim C2 -/

/-- C2 counterexample: the claim requires every discovered link to share
scheme and host with the homepage, but the source compares netloc only,
so a homepage anchor to an http URL on the https homepage host is kept
with a differing scheme. -/
theorem C2_counterexample :
    "http://www.moneycontrol.com/business/c" ∈
        collect_business_links home_url exHomeC2 ∧
    (urlparse "http://www.moneycontrol.com/business/c").scheme ≠
        (urlparse home_url).scheme := by
  constructor
  · decide
  · decide

/-- C2 (amended): for every link in a discovery result, the link host
(netloc) equals the homepage host and the link path contains the section
marker; the scheme is not compared. -/
theorem C2_host_and_section (hu : String) (soup : Node) :
    ∀ link ∈ collect_business_links hu soup,
      (urlparse link).netloc = (urlparse hu).netloc ∧
      containsSub "/business/" (urlparse link).path = true := by
  intro link hlink
  obtain ⟨abs, hla, hn, hp⟩ := collect_mem_spec hu soup link hlink
  rw [hla, urlparse_cleanUrl abs]
  exact ⟨hn, hp⟩

/-- C2 witness: the amended statement applied to a concrete homepage. -/
theorem C2_witness :
    (urlparse "https://www.moneycontrol.com/business/a").netloc =
        (urlparse home_url).netloc ∧
    containsSub "/business/"
        (urlparse "https://www.moneycontrol.com/business/a").path = true :=
  C2_host_and_section home_url exHomeC2
    "https://www.moneycontrol.com/business/a" (by decide)

/-! ## Claim C9 -/

/-- C9: every link in a discovery result contains no fragment hash
character and no query question mark character. -/
theorem C9_no_fragment_query (hu : String) (soup : Node) :
    ∀ link ∈ collect_business_links hu soup,
      ¬ '#' ∈ link.toList ∧ ¬ '?' ∈ link.toList := by
  intro link hlink
  obtain ⟨abs, hla, -, -⟩ := collect_mem_spec hu soup link hlink
  have hall : ∀ x ∈ link.toList, keepChar x = true := by
    rw [hla, cleanUrl_toList]
    intro x hx
    exact List.mem_takeWhile_imp hx
  constructor
  · intro hmem
    have hk := hall _ hmem
    simp [keepChar] at hk
  · intro hmem
    have hk := hall _ hmem
    simp [keepChar] at hk

/-- C9 witness: the statement applied to a concrete homepage whose anchor
carries a fragment and a query. -/
theorem C9_witness :
    ¬ '#' ∈ "https://www.moneycontrol.com/business/a".toList ∧
    ¬ '?' ∈ "https://www.moneycontrol.com/business/a".toList :=
  C9_no_fragment_query home_url exHomeC2
    "https://www.moneycontrol.com/business/a" (by decide)

/-! ## Claim C5 -/

/-- C5 counterexample: on the empty string, an input no permissive date
parser accepts (dateutil raises on it), the claim demands the trimmed
original text, the empty string, but the source returns None because its
falsy test catches the empty string before parsing. -/
theorem C5_counterexample :
    parse_iso_datetime (fun _ => none) (some "") = none ∧
    (none : Option String) ≠ some (pyStrip "") := by
  constructor
  · rfl
  · decide

/-- C5 (amended): null or empty input yields null; otherwise parseable
text yields the canonical ISO string and unparseable text passes through
trimmed; the embedded function is total, so the operation never
raises. -/
theorem C5_date_normalizer (dp : DateOracle) :
    parse_iso_datetime dp none = none ∧
    parse_iso_datetime dp (some "") = none ∧
    (∀ s iso, s ≠ "" → dp s = some iso →
        parse_iso_datetime dp (some s) = some iso) ∧
    (∀ s, s ≠ "" → dp s = none →
        parse_iso_datetime dp (some s) = some (pyStrip s)) := by
  refine ⟨rfl, rfl, ?_, ?_⟩
  · intro s iso hs hdp
    show (if s = "" then none else
      match dp s with
      | some iso => some iso
      | none => some (pyStrip s)) = some iso
    rw [if_neg hs, hdp]
  · intro s hs hdp
    show (if s = "" then none else
      match dp s with
      | some iso => some iso
      | none => some (pyStrip s)) = some (pyStrip s)
    rw [if_neg hs, hdp]

/-- C5 witness: the amended statement applied to a concrete oracle, a
parseable input, and an unparseable input. -/
theorem C5_witness :
    parse_iso_datetime wOracle none = none ∧
    parse_iso_datetime wOracle (some "") = none ∧
    parse_iso_datetime wOracle (some "d") = some "ISO" ∧
    parse_iso_datetime wOracle (some " x ") = some "x" := by
  obtain ⟨h1, h2, h3, h4⟩ := C5_date_normalizer wOracle
  exact ⟨h1, h2, h3 "d" "ISO" (by decide) (by decide),
    (h4 " x " (by decide) (by decide)).trans (by decide)⟩

/-! ## Claim C10 -/

/-- C10: a record with a None title and a fresh article_url is inserted
and committed, then the success log line slices the None title and
raises, so the generic handler reports the storage-error outcome while
the committed row stays in the table. -/
theorem C10_error_after_commit (db : List Row) (article : Article)
    (ht : article.title = none)
    (hfresh : ∀ r ∈ db, r.article_url ≠ article.article_url) :
    save_article_to_db db article =
      (Outcome.dbError,
        db ++ [⟨article.title, article.author, article.publication_date,
                article.article_url, article.content⟩]) := by
  unfold save_article_to_db
  have hany : ¬ db.any (fun r => r.article_url = article.article_url) = true := by
    rw [List.any_eq_true]
    rintro ⟨r, hr, he⟩
    exact hfresh r hr (by simpa using he)
  rw [if_neg hany, ht]

/-- C10 witness: the statement applied to a concrete record with a None
title against the empty table. -/
theorem C10_witness :
    save_article_to_db [] wArt10 =
      (Outcome.dbError, [⟨none, some "ann", none, "u10", "body"⟩]) := by
  have h := C10_error_after_commit [] wArt10 rfl (by intro r hr; simp at hr)
  simpa using h

/-! ## Storage and orchestrator lemmas for claims C1, C6, C7 -/

theorem save_duplicate (db : List Row) (article : Article)
    (h : ∃ r ∈ db, r.article_url = article.article_url) :
    save_article_to_db db article = (Outcome.duplicate, db) := by
  unfold save_article_to_db
  have hany : db.any (fun r => r.article_url = article.article_url) = true := by
    obtain ⟨r, hr, he⟩ := h
    exact List.any_eq_true.mpr ⟨r, hr, by simpa using he⟩
  rw [if_pos hany]

theorem save_mono (db : List Row) (article : Article) :
    ∀ r ∈ db, r ∈ (save_article_to_db db article).2 := by
  intro r hr
  unfold save_article_to_db
  by_cases h : db.any (fun r => r.article_url = article.article_url) = true
  · rw [if_pos h]
    exact hr
  · rw [if_neg h]
    cases article.title with
    | none => exact List.mem_append_left _ hr
    | some t => exact List.mem_append_left _ hr

theorem save_self_mem (db : List Row) (article : Article) :
    ∃ r ∈ (save_article_to_db db article).2, r.article_url = article.article_url := by
  unfold save_article_to_db
  by_cases h : db.any (fun r => r.article_url = article.article_url) = true
  · rw [if_pos h]
    obtain ⟨r, hr, he⟩ := List.any_eq_true.mp h
    exact ⟨r, hr, by simpa using he⟩
  · rw [if_neg h]
    cases htt : article.title with
    | none =>
      exact ⟨⟨article.title, article.author, article.publication_date,
        article.article_url, article.content⟩,
        by rw [htt]; exact List.mem_append_right _ (by simp), rfl⟩
    | some t =>
      exact ⟨⟨article.title, article.author, article.publication_date,
        article.article_url, article.content⟩,
        by rw [htt]; exact List.mem_append_right _ (by simp), rfl⟩

theorem save_stable (db db2 : List Row) (article : Article)
    (h : ∀ r ∈ (save_article_to_db db article).2, r ∈ db2) :
    save_article_to_db db2 article = (Outcome.duplicate, db2) := by
  obtain ⟨r, hr, he⟩ := save_self_mem db article
  exact save_duplicate db2 article ⟨r, h r hr, he⟩

theorem processLink_none (env : Env) (db : List Row) (link : String)
    (hf : env.fetch link = none) :
    processLink env db link = (Outcome.fetchFailed, db) := by
  unfold processLink
  rw [hf]

theorem processLink_some (env : Env) (db : List Row) (link : String) (soup : Node)
    (hf : env.fetch link = some soup) :
    processLink env db link =
      (if env.parseEx link then (Outcome.parseError, db)
       else if ¬ truthyOpt (parse_moneycontrol env.dateParse link soup).title ∧
           (parse_moneycontrol env.dateParse link soup).content = "" then
         (Outcome.rejected, db)
       else save_article_to_db db (parse_moneycontrol env.dateParse link soup)) := by
  unfold processLink
  rw [hf]

theorem processLink_mono (env : Env) (db : List Row) (link : String) :
    ∀ r ∈ db, r ∈ (processLink env db link).2 := by
  intro r hr
  cases hfetch : env.fetch link with
  | none =>
    rw [processLink_none env db link hfetch]
    exact hr
  | some soup =>
    rw [processLink_some env db link soup hfetch]
    split_ifs with h1 h2
    · exact hr
    · exact hr
    · exact save_mono db _ r hr

theorem processLink_stable (env : Env) (db db2 : List Row) (link : String)
    (h : ∀ r ∈ (processLink env db link).2, r ∈ db2) :
    (processLink env db2 link).2 = db2 := by
  cases hfetch : env.fetch link with
  | none => rw [processLink_none env db2 link hfetch]
  | some soup =>
    rw [processLink_some env db link soup hfetch] at h
    rw [processLink_some env db2 link soup hfetch]
    by_cases hex : env.parseEx link = true
    · rw [if_pos hex]
    · rw [if_neg hex] at h ⊢
      by_cases hrej :
          (¬ truthyOpt (parse_moneycontrol env.dateParse link soup).title = true) ∧
          (parse_moneycontrol env.dateParse link soup).content = ""
      · rw [if_pos hrej]
      · rw [if_neg hrej] at h ⊢
        rw [save_stable db db2 _ h]

theorem runLinks_mono (env : Env) : ∀ (ls : List String) (db : List Row),
    ∀ r ∈ db, r ∈ (runLinks env db ls).2 := by
  intro ls
  induction ls with
  | nil => intro db r hr; exact hr
  | cons l t ih =>
    intro db r hr
    simp only [runLinks]
    exact ih _ r (processLink_mono env db l r hr)

theorem runLinks_stable (env : Env) : ∀ (ls : List String) (db db2 : List Row),
    (∀ r ∈ (runLinks env db ls).2, r ∈ db2) →
    (runLinks env db2 ls).2 = db2 := by
  intro ls
  induction ls with
  | nil => intro db db2 h; rfl
  | cons l t ih =>
    intro db db2 h
    simp only [runLinks] at h ⊢
    have hstep : (processLink env db2 l).2 = db2 := by
      apply processLink_stable env db db2 l
      intro r hr
      exact h r (runLinks_mono env t _ r hr)
    rw [hstep]
    exact ih (processLink env db l).2 db2 h

theorem runLinks_idem (env : Env) (db : List Row) (ls : List String) :
    (runLinks env (runLinks env db ls).2 ls).2 = (runLinks env db ls).2 :=
  runLinks_stable env ls db _ (fun _ hr => hr)

theorem scrape_idem (env : Env) (db : List Row) :
    scrape_moneycontrol env (scrape_moneycontrol env db) = scrape_moneycontrol env db := by
  unfold scrape_moneycontrol
  cases hfetch : env.fetch home_url with
  | none => rfl
  | some soup =>
    simp only []
    by_cases hl : collect_business_links home_url soup = []
    · simp [hl]
    · rw [if_neg hl, if_neg hl]
      exact runLinks_idem env db _

/-! ## Claim C1 -/

/-- C1: inserting a record whose article_url is already stored reports the
duplicate outcome and leaves the table unchanged, and running the whole
pipeline twice against unchanged pages leaves the table, and hence its
row count, exactly as after one run. -/
theorem C1_duplicate_skip_idempotent :
    (∀ (db : List Row) (article : Article),
        (∃ r ∈ db, r.article_url = article.article_url) →
        save_article_to_db db article = (Outcome.duplicate, db)) ∧
    (∀ (env : Env) (db : List Row),
        scrape_moneycontrol env (scrape_moneycontrol env db) =
          scrape_moneycontrol env db ∧
        (scrape_moneycontrol env (scrape_moneycontrol env db)).length =
          (scrape_moneycontrol env db).length) :=
  ⟨fun db a h => save_duplicate db a h,
   fun env db => ⟨scrape_idem env db, by rw [scrape_idem env db]⟩⟩

/-- C1 witness: a duplicate insertion against a one-row table, and the
pipeline run twice from the empty table. -/
theorem C1_witness :
    save_article_to_db [wRow] wArt = (Outcome.duplicate, [wRow]) ∧
    scrape_moneycontrol wEnv1 (scrape_moneycontrol wEnv1 []) =
      scrape_moneycontrol wEnv1 [] := by
  constructor
  · exact C1_duplicate_skip_idempotent.1 [wRow] wArt ⟨wRow, by simp, rfl⟩
  · exact (C1_duplicate_skip_idempotent.2 wEnv1 []).1

/-! ## Claim C6 -/

/-- C6: a fetched document whose extracted record has a falsy title and an
empty content is rejected before storage: the outcome is rejected and the
table is unchanged. -/
theorem C6_reject_no_title_content (env : Env) (db : List Row) (link : String)
    (soup : Node)
    (hf : env.fetch link = some soup)
    (hex : env.parseEx link = false)
    (ht : truthyOpt (parse_moneycontrol env.dateParse link soup).title = false)
    (hc : (parse_moneycontrol env.dateParse link soup).content = "") :
    processLink env db link = (Outcome.rejected, db) := by
  simp only [processLink, hf]
  rw [if_neg (by simp [hex])]
  rw [if_pos ⟨by simp [ht], hc⟩]

/-- C6 witness: a document with neither title nor content is rejected. -/
theorem C6_witness : processLink wEnv6 [] "x" = (Outcome.rejected, []) :=
  C6_reject_no_title_content wEnv6 [] "x" wDoc6 rfl rfl (by decide) (by decide)

/-! ## Claim C7 -/

/-- C7: the scrape loop produces exactly one terminal outcome per link
whatever each outcome is (fetch failure, extraction exception, rejection,
storage error, duplicate or save), so no per-item failure aborts the
batch and every subsequent link is still processed. -/
theorem C7_batch_isolation (env : Env) (links : List String) :
    ∀ db : List Row, (runLinks env db links).1.length = links.length := by
  induction links with
  | nil => intro db; rfl
  | cons l t ih =>
    intro db
    simp only [runLinks, List.length_cons]
    rw [ih]

/-! ## Claim C8 -/

/-- C8: the title cascade returns the trimmed og:title meta value whenever
it trims to a non-empty string, regardless of any heading (so the meta
value wins when both are present, and is returned when only the meta
element exists), and falls back to the first h1 text exactly when the
meta step yields nothing truthy. -/
theorem C8_title_cascade :
    (∀ (soup n : Node) (c : String),
        findElem metaOgTitlePred soup = some n →
        n.getAttr "content" = some c →
        pyStrip c ≠ "" →
        extractTitle soup = some (pyStrip c)) ∧
    (∀ (soup h1 : Node),
        truthyOpt (titleMeta soup) = false →
        findElem h1Pred soup = some h1 →
        extractTitle soup = some (getTextStrip "" h1)) := by
  constructor
  · intro soup n c hfind hattr hne
    have hc : c ≠ "" := by
      intro he
      apply hne
      rw [he]
      rfl
    have hmeta : titleMeta soup = some (pyStrip c) := by
      simp only [titleMeta, hfind, hattr]
      rw [if_neg hc]
    simp only [extractTitle, hmeta]
    rw [if_pos (by simpa [truthyOpt] using hne)]
  · intro soup h1 hmetaf hfind
    simp only [extractTitle]
    rw [if_neg (by simp [hmetaf]), hfind]

/-- C8 witness: the cascade applied to a document with both meta and
heading (meta wins) and to a document with only a heading. -/
theorem C8_witness :
    extractTitle wDoc8a = some "The Title" ∧
    extractTitle wDoc8b = some "Heading" := by
  constructor
  · have h := C8_title_cascade.1 wDoc8a wDoc8meta " The Title " rfl rfl (by decide)
    exact h.trans (by decide)
  · have h := C8_title_cascade.2 wDoc8b wDoc8h1 (by decide) rfl
    exact h.trans (by decide)

/-! ## Claim C4 -/

/-- C4 counterexample: in a document whose byline element has empty joined
text and which also carries a By text node, author extraction returns the
empty byline text rather than falling through to the By pattern strategy
as the claim requires. -/
theorem C4_counterexample :
    extractAuthor exDoc4 = some "" ∧
    findTextParent byPattern exDoc4 = some exDoc4Par ∧
    getTextStrip " " exDoc4Par = "By John Smith" ∧
    (some "" : Option String) ≠ some "By John Smith" := by
  refine ⟨by decide, rfl, by decide, by decide⟩

/-- C4 (amended): the three author strategies apply in order, but the
byline strategy does not recheck emptiness: whenever the meta step yields
nothing truthy and a byline element matches, its joined text is returned
even when empty, and the By pattern strategy applies only when no byline
element matches. -/
theorem C4_author_cascade :
    (∀ (soup el : Node),
        truthyOpt (metaAuthorContent soup) = false →
        findElem authorSelPred soup = some el →
        extractAuthor soup = some (getTextStrip " " el)) ∧
    (∀ (soup parent : Node),
        truthyOpt (metaAuthorContent soup) = false →
        findElem authorSelPred soup = none →
        findTextParent byPattern soup = some parent →
        extractAuthor soup = some (getTextStrip " " parent)) := by
  constructor
  · intro soup el hm hf
    unfold extractAuthor
    rw [if_neg (by simp [hm]), hf]
  · intro soup parent hm hf hby
    unfold extractAuthor
    rw [if_neg (by simp [hm]), hf, hby]

/-- C4 witness: the empty byline element wins over the By text node, and
the By strategy applies when no byline element exists. -/
theorem C4_witness :
    extractAuthor exDoc4 = some (getTextStrip " " exDoc4Span) ∧
    extractAuthor wDoc4b = some "By Jane Doe" := by
  constructor
  · exact C4_author_cascade.1 exDoc4 exDoc4Span (by decide) rfl
  · have h := C4_author_cascade.2 wDoc4b
      (Node.elem "p" [] [Node.text "By Jane Doe"]) (by decide) rfl rfl
    exact h.trans (by decide)

/-! ## Claim C3 -/

/-- C3 counterexample: the source keeps duplicate chunks: for a container
whose two paragraphs carry the same text, the content field joins the
chunk twice and so differs from the distinct-chunk join the claim
describes. -/
theorem C3_counterexample :
    findElem selArticleText exDoc3 = some exDoc3Div ∧
    extractContent exDoc3 = "x\n\nx" ∧
    extractContent exDoc3 ≠ specDistinctJoin (findAllDesc pDivPred exDoc3Div) := by
  refine ⟨rfl, by decide, by decide⟩

theorem contentLoop_first (soup node : Node) :
    ∀ (pre : List (String → List (String × String) → Bool))
      (post : List (String → List (String × String) → Bool))
      (sel : String → List (String × String) → Bool),
      (∀ s ∈ pre, findElem s soup = none) →
      findElem sel soup = some node →
      extract_text_from_elements (findAllDesc pDivPred node) ≠ "" →
      contentLoop soup (pre ++ sel :: post) =
        some (extract_text_from_elements (findAllDesc pDivPred node)) := by
  intro pre
  induction pre with
  | nil =>
    intro post sel hpre hfind hne
    simp only [List.nil_append, contentLoop, hfind]
    rw [if_pos hne]
  | cons p pre2 ih =>
    intro post sel hpre hfind hne
    have hp : findElem p soup = none := hpre p (by simp)
    simp only [List.cons_append, contentLoop, hp]
    exact ih post sel (fun s hs => hpre s (by simp [hs])) hfind hne

/-- C3 (amended): when the first matching body-container selector yields a
non-empty joined text, the content field equals the non-empty text chunks
of the paragraph- and block-level descendants of that container joined
with a blank line, duplicates retained. -/
theorem C3_first_selector (soup node : Node)
    (pre post : List (String → List (String × String) → Bool))
    (sel : String → List (String × String) → Bool)
    (hsels : content_selectors = pre ++ sel :: post)
    (hpre : ∀ s ∈ pre, findElem s soup = none)
    (hfind : findElem sel soup = some node)
    (hne : extract_text_from_elements (findAllDesc pDivPred node) ≠ "") :
    extractContent soup = extract_text_from_elements (findAllDesc pDivPred node) := by
  have hloop : contentLoop soup content_selectors =
      some (extract_text_from_elements (findAllDesc pDivPred node)) := by
    rw [hsels]
    exact contentLoop_first soup node pre post sel hpre hfind hne
  simp [extractContent, hloop, truthyOpt, hne]

/-- C3 witness: the first selector matches a container with one paragraph
and its text becomes the content field. -/
theorem C3_witness : extractContent wDoc3 = "hello" := by
  have h := C3_first_selector wDoc3 wDoc3Div []
    [selArticleContent, selArticleDesc, selContentId, selArticleBodyId, selArticleTag]
    selArticleText rfl (by intro s hs; simp at hs) rfl (by decide)
  exact h.trans (by decide)
